import Mathlib

/-!
Shallow embedding of the Accept-Language matcher from `src/main.go` and the
struct-based variant from `src/parser.go`.

Strings are modelled as lists of characters (`Str`).  The Go hash maps
`supportedExact : map[string]bool` and `seen : map[string]bool` are modelled
as membership tests on the lists that populate them (`hasTag`), and the map
`supportedGeneric : map[string][]string` is modelled as an association list
built by the same loop that builds it in the source (`buildGeneric`), looked
up with `lookupGeneric`.
-/

set_option maxHeartbeats 1000000

/-- Strings, modelled as lists of characters. -/
abbrev Str := List Char

/-- Conversion from a Lean string literal to the model. -/
def strL (s : String) : Str := s.data

/-- Go `unicode.IsSpace` on the characters relevant to `strings.TrimSpace`:
space, tab, newline, vertical tab, form feed, carriage return, NEL, NBSP. -/
def goIsSpace (c : Char) : Bool :=
  c == ' ' || c == '\t' || c == '\n' || c == Char.ofNat 11 || c == Char.ofNat 12 ||
  c == '\r' || c == Char.ofNat 133 || c == Char.ofNat 160

/-- Drop leading whitespace characters. -/
def dropSpaceLeft : Str → Str
  | [] => []
  | c :: cs => if goIsSpace c then dropSpaceLeft cs else c :: cs

/-- Go `strings.TrimSpace`: drop leading and trailing whitespace. -/
def trimSpace (s : Str) : Str :=
  (dropSpaceLeft (dropSpaceLeft s).reverse).reverse

/-- Go `strings.Split(s, ",")`: split on every comma; the empty string
splits into `[""]`. -/
def splitOnComma : Str → List Str
  | [] => [[]]
  | c :: cs =>
    if c = ',' then [] :: splitOnComma cs
    else
      match splitOnComma cs with
      | [] => [[c]]
      | t :: ts => (c :: t) :: ts

/-- Go `strings.SplitN(s, "-", 2)`: at most two pieces, split at the first
hyphen; the empty string splits into `[""]`. -/
def splitN2Hyphen : Str → List Str
  | [] => [[]]
  | c :: cs =>
    if c = '-' then [[], cs]
    else
      match splitN2Hyphen cs with
      | [] => [[c]]
      | t :: ts => (c :: t) :: ts

/-- The element `parts[0]` of `strings.SplitN(lang, "-", 2)`: the prefix of
a tag up to (but not including) its first hyphen. -/
def genericOf (lang : Str) : Str := (splitN2Hyphen lang).headD []

/-- Go `strings.Contains(s, string(c))` for a one-character needle. -/
def containsChar : Str → Char → Bool
  | [], _ => false
  | c :: cs, d => if c = d then true else containsChar cs d

/-- Lookup in a `map[string]bool` populated from a list of tags
(`supportedExact` and `seen` in the source). -/
def hasTag : List Str → Str → Bool
  | [], _ => false
  | t :: ts, lang => if t = lang then true else hasTag ts lang

/-- One step of building `supportedGeneric`:
Go `supportedGeneric[generic] = append(supportedGeneric[generic], lang)`. -/
def addGeneric (m : List (Str × List Str)) (g : Str) (lang : Str) : List (Str × List Str) :=
  match m with
  | [] => [(g, [lang])]
  | (k, vs) :: rest => if k = g then (k, vs ++ [lang]) :: rest else (k, vs) :: addGeneric rest g lang

/-- The loop over `supported` in `parseAcceptLanguage` that builds the
`supportedGeneric` map (generic prefix ↦ variants in supported order). -/
def buildGeneric (supported : List Str) : List (Str × List Str) :=
  supported.foldl (fun m lang => addGeneric m (genericOf lang) lang) []

/-- Map lookup `supportedGeneric[lang]`; a missing key reads as the empty
variant list (the `exists` guard in the source then loops over nothing). -/
def lookupGeneric : List (Str × List Str) → Str → List Str
  | [], _ => []
  | (k, vs) :: rest, g => if k = g then vs else lookupGeneric rest g

/-- The inner loops of the wildcard and generic branches: append each tag of
`l` that is not yet in `seen` to both `result` and `seen`. -/
def appendUnseen (l : List Str) (st : List Str × List Str) : List Str × List Str :=
  l.foldl (fun st t => if hasTag st.2 t then st else (st.1 ++ [t], st.2 ++ [t])) st

/-- The body of the `for _, pref := range clientPrefs` loop in
`parseAcceptLanguage` (src/main.go): trim, skip empty, wildcard branch,
exact branch, generic branch. -/
def processToken (sg : List (Str × List Str)) (supported : List Str)
    (st : List Str × List Str) (pref : Str) : List Str × List Str :=
  let lang := trimSpace pref
  if lang = [] then st
  else if lang = ['*'] then appendUnseen supported st
  else if hasTag supported lang && !hasTag st.2 lang then (st.1 ++ [lang], st.2 ++ [lang])
  else if !containsChar lang '-' then appendUnseen (lookupGeneric sg lang) st
  else st

/-- The function `parseAcceptLanguage` of src/main.go: parse the
Accept-Language header and return supported languages in the client's
preference order. -/
def parseAcceptLanguage (header : Str) (supported : List Str) : List Str :=
  if header = [] ∨ supported = [] then []
  else ((splitOnComma header).foldl (processToken (buildGeneric supported) supported) ([], [])).1

/-- The struct from src/parser.go (no fields). -/
structure LanguageParser where

/-- The constructor `NewLanguageParser` of src/parser.go. -/
def NewLanguageParser : LanguageParser := {}

/-- The method `Parse` on `LanguageParser` from src/parser.go:
exact-membership filtering of the trimmed, comma-split header against
`supported`, with dedup. -/
def LanguageParser.Parse (_lp : LanguageParser) (header : Str) (supported : List Str) :
    List Str :=
  if header = [] then []
  else if supported = [] then []
  else
    ((splitOnComma header).foldl (fun st pref =>
      let lang := trimSpace pref
      if lang = [] then st
      else if hasTag supported lang && !hasTag st.2 lang then (st.1 ++ [lang], st.2 ++ [lang])
      else st) ([], [])).1

/-- Fallible variant of the `supportedGeneric`-building loop: `parts[0]` is
taken with `head?`, so an empty `SplitN` result would surface as `none`
(the error branch of the indexing). -/
def buildGenericChecked (supported : List Str) : Option (List (Str × List Str)) :=
  List.foldlM (fun m lang =>
    match (splitN2Hyphen lang).head? with
    | some generic => some (addGeneric m generic lang)
    | none => none) [] supported

/-- The matcher with the fallible index into the `SplitN` result made
explicit; `none` would mean the out-of-bounds branch was reached. -/
def parseAcceptLanguageChecked (header : Str) (supported : List Str) : Option (List Str) :=
  if header = [] ∨ supported = [] then some []
  else
    match buildGenericChecked supported with
    | none => none
    | some sg => some (((splitOnComma header).foldl (processToken sg supported) ([], [])).1)

/-- Instrumented inner loop: like `appendUnseen` but each appended tag is
paired with the index `i` of the header token responsible for it. -/
def appendUnseenIdx (i : Nat) (l : List Str) (st : List (Str × Nat) × List Str) :
    List (Str × Nat) × List Str :=
  l.foldl (fun st t => if hasTag st.2 t then st else (st.1 ++ [(t, i)], st.2 ++ [t])) st

/-- Instrumented loop body: like `processToken` but records, for every tag
appended to the result, the index of the header token whose rule appended it. -/
def processTokenIdx (sg : List (Str × List Str)) (supported : List Str) (i : Nat)
    (st : List (Str × Nat) × List Str) (pref : Str) : List (Str × Nat) × List Str :=
  let lang := trimSpace pref
  if lang = [] then st
  else if lang = ['*'] then appendUnseenIdx i supported st
  else if hasTag supported lang && !hasTag st.2 lang then (st.1 ++ [(lang, i)], st.2 ++ [lang])
  else if !containsChar lang '-' then appendUnseenIdx i (lookupGeneric sg lang) st
  else st

/-- The instrumented main loop, threading the position of the current token. -/
def runIdx (sg : List (Str × List Str)) (supported : List Str) :
    Nat → List Str → (List (Str × Nat) × List Str) → List (Str × Nat) × List Str
  | _, [], st => st
  | i, pref :: rest, st => runIdx sg supported (i + 1) rest (processTokenIdx sg supported i st pref)

/-- The matcher instrumented with the token index responsible for each
element of the result. -/
def parseAcceptLanguageIdx (header : Str) (supported : List Str) : List (Str × Nat) :=
  if header = [] ∨ supported = [] then []
  else (runIdx (buildGeneric supported) supported 0 (splitOnComma header) ([], [])).1

/-! ### Basic lemmas about the lookup structures -/

theorem hasTag_eq_true {l : List Str} {x : Str} : hasTag l x = true ↔ x ∈ l := by
  induction l with
  | nil => simp [hasTag]
  | cons t ts ih =>
    by_cases h : t = x
    · simp [hasTag, h]
    · have hx : ¬x = t := fun he => h he.symm
      simp [hasTag, h, ih, hx]

theorem hasTag_eq_false {l : List Str} {x : Str} : hasTag l x = false ↔ x ∉ l := by
  rw [← hasTag_eq_true]
  cases hasTag l x <;> simp

theorem hasTag_append_ne {r : List Str} {t x : Str} (h : t ≠ x) :
    hasTag (r ++ [t]) x = hasTag r x := by
  induction r with
  | nil => simp [hasTag, h]
  | cons r0 rs ih =>
    by_cases h0 : r0 = x <;> simp [hasTag, h0, ih]

theorem splitN2Hyphen_length_pos (s : Str) : 0 < (splitN2Hyphen s).length := by
  cases s with
  | nil => simp [splitN2Hyphen]
  | cons c cs =>
    by_cases h : c = '-'
    · simp [splitN2Hyphen, h]
    · cases hm : splitN2Hyphen cs with
      | nil => simp [splitN2Hyphen, h, hm]
      | cons t ts => simp [splitN2Hyphen, h, hm]

theorem lookupGeneric_addGeneric (m : List (Str × List Str)) (g g' lang : Str) :
    lookupGeneric (addGeneric m g' lang) g =
      if g' = g then lookupGeneric m g ++ [lang] else lookupGeneric m g := by
  induction m with
  | nil =>
    by_cases h : g' = g <;> simp [addGeneric, lookupGeneric, h]
  | cons kv rest ih =>
    obtain ⟨k, vs⟩ := kv
    by_cases hk : k = g'
    · subst hk
      by_cases hg : k = g <;> simp [addGeneric, lookupGeneric, hg]
    · by_cases hg : k = g
      · subst hg
        have : g' ≠ k := fun h => hk h.symm
        simp [addGeneric, lookupGeneric, hk, this]
      · simp [addGeneric, lookupGeneric, hk, hg, ih]

theorem lookupGeneric_foldl (l : List Str) (m : List (Str × List Str)) (g : Str) :
    lookupGeneric (l.foldl (fun m lang => addGeneric m (genericOf lang) lang) m) g =
      lookupGeneric m g ++ l.filter (fun lang => genericOf lang == g) := by
  induction l generalizing m with
  | nil => simp
  | cons lang rest ih =>
    rw [List.foldl_cons, ih, lookupGeneric_addGeneric, List.filter_cons]
    by_cases h : genericOf lang = g
    · simp [h, List.append_assoc]
    · simp [h]

theorem lookupGeneric_buildGeneric (supported : List Str) (g : Str) :
    lookupGeneric (buildGeneric supported) g =
      supported.filter (fun lang => genericOf lang == g) := by
  have := lookupGeneric_foldl supported [] g
  simpa [buildGeneric, lookupGeneric] using this

theorem mem_lookupGeneric_buildGeneric {supported : List Str} {g x : Str}
    (h : x ∈ lookupGeneric (buildGeneric supported) g) : x ∈ supported := by
  rw [lookupGeneric_buildGeneric] at h
  exact List.mem_of_mem_filter h

/-! ### Lemmas about the append-unseen inner loops -/

theorem appendUnseen_nil (st : List Str × List Str) : appendUnseen [] st = st := rfl

theorem appendUnseen_cons (t : Str) (ts : List Str) (st : List Str × List Str) :
    appendUnseen (t :: ts) st =
      appendUnseen ts (if hasTag st.2 t then st else (st.1 ++ [t], st.2 ++ [t])) := rfl

theorem appendUnseen_spec (l : List Str) (r : List Str) :
    ∃ d, appendUnseen l (r, r) = (r ++ d, r ++ d) ∧ (∀ x ∈ d, x ∈ l) ∧
      (r.Nodup → (r ++ d).Nodup) := by
  induction l generalizing r with
  | nil => exact ⟨[], by simp [appendUnseen_nil], by simp, by simp⟩
  | cons t ts ih =>
    by_cases h : hasTag r t = true
    · obtain ⟨d, hd, hmem, hnd⟩ := ih r
      refine ⟨d, ?_, ?_, hnd⟩
      · rw [appendUnseen_cons]
        simpa [h] using hd
      · exact fun x hx => List.mem_cons_of_mem _ (hmem x hx)
    · have h' : hasTag r t = false := by
        cases hh : hasTag r t
        · rfl
        · exact absurd hh h
      obtain ⟨d, hd, hmem, hnd⟩ := ih (r ++ [t])
      refine ⟨t :: d, ?_, ?_, ?_⟩
      · rw [appendUnseen_cons]
        simp only [h', if_neg, Bool.false_eq_true, not_false_iff]
        rw [show ((r, r).1 ++ [t], (r, r).2 ++ [t]) = (r ++ [t], r ++ [t]) from rfl, hd]
        simp
      · intro x hx
        rcases List.mem_cons.mp hx with hx | hx
        · simp [hx]
        · exact List.mem_cons_of_mem _ (hmem x hx)
      · intro hr
        have ht : t ∉ r := hasTag_eq_false.mp h'
        have hrt : (r ++ [t]).Nodup := by
          rw [List.nodup_append]
          exact ⟨hr, List.nodup_singleton t, by simpa using ht⟩
        have := hnd hrt
        simpa [List.append_assoc] using this

theorem appendUnseen_eq_filter (l : List Str) (r : List Str) (hl : l.Nodup) :
    appendUnseen l (r, r) =
      (r ++ l.filter (fun t => !hasTag r t), r ++ l.filter (fun t => !hasTag r t)) := by
  induction l generalizing r with
  | nil => simp [appendUnseen_nil]
  | cons t ts ih =>
    have hts : ts.Nodup := (List.nodup_cons.mp hl).2
    have htn : t ∉ ts := (List.nodup_cons.mp hl).1
    rw [appendUnseen_cons, List.filter_cons]
    by_cases h : hasTag r t = true
    · simpa [h] using ih r hts
    · have h' : hasTag r t = false := by
        cases hh : hasTag r t
        · rfl
        · exact absurd hh h
      simp only [h', if_neg, Bool.false_eq_true, not_false_iff, Bool.not_false, if_pos]
      rw [show ((r, r).1 ++ [t], (r, r).2 ++ [t]) = (r ++ [t], r ++ [t]) from rfl,
        ih (r ++ [t]) hts]
      have hfc : ts.filter (fun x => !hasTag (r ++ [t]) x) = ts.filter (fun x => !hasTag r x) := by
        apply List.filter_congr
        intro x hx
        have hne : t ≠ x := fun he => htn (he ▸ hx)
        rw [hasTag_append_ne hne]
      rw [hfc]
      simp [List.append_assoc]

/-! ### Branch lemmas for the per-token dispatch -/

theorem processToken_empty (sg : List (Str × List Str)) (supported : List Str)
    (st : List Str × List Str) (pref : Str) (h : trimSpace pref = []) :
    processToken sg supported st pref = st := by
  simp [processToken, h]

theorem processToken_wildcard (sg : List (Str × List Str)) (supported : List Str)
    (st : List Str × List Str) (pref : Str) (h : trimSpace pref = ['*']) :
    processToken sg supported st pref = appendUnseen supported st := by
  simp [processToken, h]

theorem processToken_exact (sg : List (Str × List Str)) (supported : List Str)
    (st : List Str × List Str) (pref : Str) (h0 : trimSpace pref ≠ [])
    (h1 : trimSpace pref ≠ ['*'])
    (h2 : hasTag supported (trimSpace pref) = true)
    (h3 : hasTag st.2 (trimSpace pref) = false) :
    processToken sg supported st pref =
      (st.1 ++ [trimSpace pref], st.2 ++ [trimSpace pref]) := by
  simp [processToken, h0, h1, h2, h3]

theorem processToken_generic (sg : List (Str × List Str)) (supported : List Str)
    (st : List Str × List Str) (pref : Str) (h0 : trimSpace pref ≠ [])
    (h1 : trimSpace pref ≠ ['*'])
    (h2 : (hasTag supported (trimSpace pref) && !hasTag st.2 (trimSpace pref)) = false)
    (h3 : containsChar (trimSpace pref) '-' = false) :
    processToken sg supported st pref =
      appendUnseen (lookupGeneric sg (trimSpace pref)) st := by
  simp [processToken, h0, h1, h2, h3]

theorem processToken_skip (sg : List (Str × List Str)) (supported : List Str)
    (st : List Str × List Str) (pref : Str) (h0 : trimSpace pref ≠ [])
    (h1 : trimSpace pref ≠ ['*'])
    (h2 : (hasTag supported (trimSpace pref) && !hasTag st.2 (trimSpace pref)) = false)
    (h3 : containsChar (trimSpace pref) '-' = true) :
    processToken sg supported st pref = st := by
  simp [processToken, h0, h1, h2, h3]

/-! ### State invariants of the main loop -/

theorem processToken_spec (sg : List (Str × List Str)) (supported : List Str)
    (r : List Str) (pref : Str)
    (hsg : ∀ g x, x ∈ lookupGeneric sg g → x ∈ supported) :
    ∃ d, processToken sg supported (r, r) pref = (r ++ d, r ++ d) ∧
      (∀ x ∈ d, x ∈ supported) ∧ (r.Nodup → (r ++ d).Nodup) := by
  by_cases h0 : trimSpace pref = []
  · exact ⟨[], by simp [processToken_empty sg supported (r, r) pref h0], by simp,
      by simp⟩
  by_cases h1 : trimSpace pref = ['*']
  · obtain ⟨d, hd, hmem, hnd⟩ := appendUnseen_spec supported r
    exact ⟨d, by rw [processToken_wildcard sg supported (r, r) pref h1]; exact hd, hmem, hnd⟩
  cases h2 : (hasTag supported (trimSpace pref) && !hasTag r (trimSpace pref)) with
  | true =>
    have hsup : hasTag supported (trimSpace pref) = true := (Bool.and_eq_true_iff.mp h2).1
    have hseen : hasTag r (trimSpace pref) = false := by
      have := (Bool.and_eq_true_iff.mp h2).2
      cases hh : hasTag r (trimSpace pref)
      · rfl
      · rw [hh] at this
        simp at this
    refine ⟨[trimSpace pref],
      processToken_exact sg supported (r, r) pref h0 h1 hsup hseen, ?_, ?_⟩
    · intro x hx
      rw [List.mem_singleton.mp hx]
      exact hasTag_eq_true.mp hsup
    · intro hr
      rw [List.nodup_append]
      exact ⟨hr, List.nodup_singleton _, by simpa using hasTag_eq_false.mp hseen⟩
  | false =>
    cases h3 : containsChar (trimSpace pref) '-' with
    | true => exact ⟨[], by simp [processToken_skip sg supported (r, r) pref h0 h1 h2 h3],
        by simp, by simp⟩
    | false =>
      obtain ⟨d, hd, hmem, hnd⟩ := appendUnseen_spec (lookupGeneric sg (trimSpace pref)) r
      refine ⟨d, ?_, ?_, hnd⟩
      · rw [processToken_generic sg supported (r, r) pref h0 h1 h2 h3]
        exact hd
      · exact fun x hx => hsg _ x (hmem x hx)

theorem foldProcess_spec (prefs : List Str) (sg : List (Str × List Str))
    (supported : List Str) (r : List Str)
    (hsg : ∀ g x, x ∈ lookupGeneric sg g → x ∈ supported) :
    ∃ u, prefs.foldl (processToken sg supported) (r, r) = (u, u) ∧
      (r.Nodup → u.Nodup) ∧ (∀ x ∈ u, x ∈ r ∨ x ∈ supported) := by
  induction prefs generalizing r with
  | nil => exact ⟨r, rfl, fun h => h, fun x hx => Or.inl hx⟩
  | cons pref rest ih =>
    obtain ⟨d, hd, hmem, hnd⟩ := processToken_spec sg supported r pref hsg
    obtain ⟨u, hu, hund, humem⟩ := ih (r ++ d)
    refine ⟨u, ?_, fun hr => hund (hnd hr), ?_⟩
    · rw [List.foldl_cons, hd, hu]
    · intro x hx
      rcases humem x hx with hx' | hx'
      · rcases List.mem_append.mp hx' with h | h
        · exact Or.inl h
        · exact Or.inr (hmem x h)
      · exact Or.inr hx'

theorem parseAcceptLanguage_spec (header : Str) (supported : List Str) :
    (parseAcceptLanguage header supported).Nodup ∧
      ∀ x ∈ parseAcceptLanguage header supported, x ∈ supported := by
  unfold parseAcceptLanguage
  by_cases h : header = [] ∨ supported = []
  · simp [h]
  · rw [if_neg h]
    obtain ⟨u, hu, hnd, hmem⟩ := foldProcess_spec (splitOnComma header)
      (buildGeneric supported) supported []
      (fun g x hx => mem_lookupGeneric_buildGeneric hx)
    rw [hu]
    exact ⟨hnd List.nodup_nil, fun x hx => (hmem x hx).resolve_left (List.not_mem_nil x)⟩

theorem buildGenericChecked_eq_some (supported : List Str) :
    buildGenericChecked supported = some (buildGeneric supported) := by
  unfold buildGenericChecked buildGeneric
  generalize hm : ([] : List (Str × List Str)) = m
  clear hm
  induction supported generalizing m with
  | nil => rfl
  | cons lang rest ih =>
    have hne : splitN2Hyphen lang ≠ [] := by
      have hl := splitN2Hyphen_length_pos lang
      intro h
      rw [h] at hl
      simp at hl
    obtain ⟨a, as, ha⟩ : ∃ a as, splitN2Hyphen lang = a :: as := by
      cases hsp : splitN2Hyphen lang with
      | nil => exact absurd hsp hne
      | cons a as => exact ⟨a, as, rfl⟩
    simp only [List.foldlM_cons, List.foldl_cons, ha, List.head?_cons, Option.bind_eq_bind]
    rw [show (genericOf lang) = a by simp [genericOf, ha]]
    simpa using ih (addGeneric m a lang)

/-! ### Claim theorems -/

/-- C1, counterexample.  The claim states the priority exact > generic >
wildcard, and in particular that when the literal token `*` is itself a
member of `supported`, the exact rule handles the token `*`.  The exact rule
appends only the matched tag itself, so under the claim
`match("*", ["*","en"])` would be `["*"]`.  The code instead checks the
wildcard branch first: the result is `["*","en"]`, and the presence of
`"en"` (appended for the token `*` by the wildcard expansion) proves the
wildcard rule, not the exact rule, fired. -/
theorem claim1_counterexample :
    parseAcceptLanguage (strL "*") [strL "*", strL "en"] = [strL "*", strL "en"] ∧
      strL "en" ∈ parseAcceptLanguage (strL "*") [strL "*", strL "en"] := by
  decide

/-- C1, amended: the per-token priority is wildcard > exact > generic.  A
token that trims to `*` is always handled by the wildcard rule — even when
`*` is a member of `supported` — and a non-`*` token that byte-for-byte
equals a supported tag not yet in the result is handled by the exact rule in
preference to the generic rule (it appends that tag alone). -/
theorem claim1_theorem (supported r : List Str) (pref : Str) :
    (trimSpace pref = ['*'] →
      processToken (buildGeneric supported) supported (r, r) pref =
        appendUnseen supported (r, r)) ∧
    (trimSpace pref ≠ [] → trimSpace pref ≠ ['*'] →
      hasTag supported (trimSpace pref) = true → hasTag r (trimSpace pref) = false →
      processToken (buildGeneric supported) supported (r, r) pref =
        (r ++ [trimSpace pref], r ++ [trimSpace pref])) :=
  ⟨fun h => processToken_wildcard _ _ _ _ h,
   fun h0 h1 h2 h3 => processToken_exact _ _ _ _ h0 h1 h2 h3⟩

/-- C1, witness: the wildcard conjunct at `supported = ["*","en"]` with the
token `*`, and the exact-beats-generic conjunct at the token `en-US`. -/
theorem claim1_witness :
    (processToken (buildGeneric [strL "*", strL "en"]) [strL "*", strL "en"]
        ([], []) (strL "*") = appendUnseen [strL "*", strL "en"] ([], [])) ∧
    (processToken (buildGeneric [strL "en-US", strL "fr-FR"]) [strL "en-US", strL "fr-FR"]
        ([], []) (strL "en-US") =
      ([] ++ [trimSpace (strL "en-US")], [] ++ [trimSpace (strL "en-US")])) :=
  ⟨(claim1_theorem [strL "*", strL "en"] [] (strL "*")).1 (by decide),
   (claim1_theorem [strL "en-US", strL "fr-FR"] [] (strL "en-US")).2
     (by decide) (by decide) (by decide) (by decide)⟩

/-- C2: the struct-based `Parse` of src/parser.go does only exact matching,
so it disagrees with `parseAcceptLanguage` of src/main.go on generic tokens
and on the wildcard, contradicting its own doc comment ("implements the same
logic") and the test file's stated intent that the two implementations behave
identically. -/
theorem claim2_theorem :
    NewLanguageParser.Parse (strL "fr") [strL "en-US", strL "fr-CA", strL "fr-FR"] = [] ∧
    parseAcceptLanguage (strL "fr") [strL "en-US", strL "fr-CA", strL "fr-FR"]
      = [strL "fr-CA", strL "fr-FR"] ∧
    NewLanguageParser.Parse (strL "en-US, *") [strL "en-US", strL "fr-CA", strL "fr-FR"]
      = [strL "en-US"] ∧
    parseAcceptLanguage (strL "en-US, *") [strL "en-US", strL "fr-CA", strL "fr-FR"]
      = [strL "en-US", strL "fr-CA", strL "fr-FR"] := by
  refine ⟨?_, ?_, ?_, ?_⟩ <;> decide

/-- C3: a header token with no hyphen that is not resolved by the exact rule
(and is not the wildcard token, which the higher-priority wildcard rule
handles) appends, in supported-list order, exactly the supported tags whose
prefix up to the first hyphen equals the token byte-for-byte and that are
not yet in the result. -/
theorem claim3_theorem (supported r : List Str) (pref : Str) (hnd : supported.Nodup)
    (h0 : trimSpace pref ≠ []) (h1 : trimSpace pref ≠ ['*'])
    (hh : containsChar (trimSpace pref) '-' = false)
    (hex : (hasTag supported (trimSpace pref) && !hasTag r (trimSpace pref)) = false) :
    processToken (buildGeneric supported) supported (r, r) pref =
      (r ++ ((supported.filter (fun t => genericOf t == trimSpace pref)).filter
          (fun t => !hasTag r t)),
       r ++ ((supported.filter (fun t => genericOf t == trimSpace pref)).filter
          (fun t => !hasTag r t))) := by
  rw [processToken_generic _ _ _ _ h0 h1 hex hh, lookupGeneric_buildGeneric]
  exact appendUnseen_eq_filter _ r (hnd.filter _)

/-- C3, witness: `match("fr", ["en-US","fr-CA","fr-FR"])`'s generic token at
the empty starting state. -/
theorem claim3_witness :
    processToken (buildGeneric [strL "en-US", strL "fr-CA", strL "fr-FR"])
        [strL "en-US", strL "fr-CA", strL "fr-FR"] ([], []) (strL "fr") =
      ([] ++ (([strL "en-US", strL "fr-CA", strL "fr-FR"].filter
          (fun t => genericOf t == trimSpace (strL "fr"))).filter (fun t => !hasTag [] t)),
       [] ++ (([strL "en-US", strL "fr-CA", strL "fr-FR"].filter
          (fun t => genericOf t == trimSpace (strL "fr"))).filter (fun t => !hasTag [] t))) :=
  claim3_theorem [strL "en-US", strL "fr-CA", strL "fr-FR"] [] (strL "fr")
    (by decide) (by decide) (by decide) (by decide) (by decide)

/-- C4: a header token that trims to `*` appends, in supported-list order,
exactly the supported tags not yet in the result, and nothing else; a later
`*` with nothing left appends nothing (the filter is then empty). -/
theorem claim4_theorem (supported r : List Str) (pref : Str) (hnd : supported.Nodup)
    (h : trimSpace pref = ['*']) :
    processToken (buildGeneric supported) supported (r, r) pref =
      (r ++ supported.filter (fun t => !hasTag r t),
       r ++ supported.filter (fun t => !hasTag r t)) := by
  rw [processToken_wildcard _ _ _ _ h]
  exact appendUnseen_eq_filter supported r hnd

/-- C4, witness: the `*` token of `match("en-US, *", ["en-US","fr-CA","fr-FR"])`
at the state where `en-US` is already in the result. -/
theorem claim4_witness :
    processToken (buildGeneric [strL "en-US", strL "fr-CA", strL "fr-FR"])
        [strL "en-US", strL "fr-CA", strL "fr-FR"]
        ([strL "en-US"], [strL "en-US"]) (strL " *") =
      ([strL "en-US"] ++ [strL "en-US", strL "fr-CA", strL "fr-FR"].filter
          (fun t => !hasTag [strL "en-US"] t),
       [strL "en-US"] ++ [strL "en-US", strL "fr-CA", strL "fr-FR"].filter
          (fun t => !hasTag [strL "en-US"] t)) :=
  claim4_theorem [strL "en-US", strL "fr-CA", strL "fr-FR"] [strL "en-US"] (strL " *")
    (by decide) (by decide)

/-- C5: for every header and every supported list — including supported
lists with repeated tags — the result contains no tag twice, and a literal
comma-separated duplicate in the header produces a single occurrence at the
position of its first match. -/
theorem claim5_theorem :
    (∀ header supported, (parseAcceptLanguage header supported).Nodup) ∧
      parseAcceptLanguage (strL "en-US, en-US") [strL "en-US", strL "fr-CA"]
        = [strL "en-US"] :=
  ⟨fun header supported => (parseAcceptLanguage_spec header supported).1, by decide⟩

/-- C6: every tag in the result is an element of the supported list. -/
theorem claim6_theorem (header : Str) (supported : List Str) (x : Str)
    (hx : x ∈ parseAcceptLanguage header supported) : x ∈ supported :=
  (parseAcceptLanguage_spec header supported).2 x hx

/-- C6, witness: `fr-CA` is in the result of `match("fr", ...)`, hence in the
supported list. -/
theorem claim6_witness : strL "fr-CA" ∈ [strL "en-US", strL "fr-CA", strL "fr-FR"] :=
  claim6_theorem (strL "fr") [strL "en-US", strL "fr-CA", strL "fr-FR"] (strL "fr-CA")
    (by decide)

/-- C8: the empty header yields the empty result for every supported list,
and the empty supported list yields the empty result for every header. -/
theorem claim8_theorem :
    (∀ supported, parseAcceptLanguage [] supported = []) ∧
      (∀ header, parseAcceptLanguage header [] = []) :=
  ⟨fun supported => by simp [parseAcceptLanguage],
   fun header => by simp [parseAcceptLanguage]⟩

/-- C9: the matcher is a pure function of its two arguments — equal headers
and equal supported lists give identical results; the embedding's lookup
structures are values derived from the arguments, so no iteration order or
outside state can influence the output. -/
theorem claim9_theorem (h₁ h₂ : Str) (s₁ s₂ : List Str) (hh : h₁ = h₂) (hs : s₁ = s₂) :
    parseAcceptLanguage h₁ s₁ = parseAcceptLanguage h₂ s₂ := by
  rw [hh, hs]

/-- C9, witness: determinism at a concrete input. -/
theorem claim9_witness :
    parseAcceptLanguage (strL "fr") [strL "fr-CA"]
      = parseAcceptLanguage (strL "fr") [strL "fr-CA"] :=
  claim9_theorem (strL "fr") (strL "fr") [strL "fr-CA"] [strL "fr-CA"] rfl rfl

/-- C10: `SplitN(lang, "-", 2)` always yields at least one piece, so the
`parts[0]` index is in bounds, and the variant of the matcher with that
index made fallible never reaches its error branch: it returns exactly
`some` of the total matcher's result on all inputs, however malformed. -/
theorem claim10_theorem :
    (∀ lang : Str, 0 < (splitN2Hyphen lang).length) ∧
      (∀ header supported, parseAcceptLanguageChecked header supported
        = some (parseAcceptLanguage header supported)) := by
  refine ⟨splitN2Hyphen_length_pos, fun header supported => ?_⟩
  unfold parseAcceptLanguageChecked parseAcceptLanguage
  by_cases h : header = [] ∨ supported = []
  · simp [h]
  · rw [if_neg h, if_neg h, buildGenericChecked_eq_some]

/-! ### The instrumented run agrees with the plain run and its token
indices are monotone -/

theorem appendUnseenIdx_cons (i : Nat) (t : Str) (ts : List Str)
    (st : List (Str × Nat) × List Str) :
    appendUnseenIdx i (t :: ts) st =
      appendUnseenIdx i ts (if hasTag st.2 t then st else (st.1 ++ [(t, i)], st.2 ++ [t])) := rfl

theorem appendUnseenIdx_corr (i : Nat) (l : List Str) (ann : List (Str × Nat))
    (seen : List Str) :
    (appendUnseenIdx i l (ann, seen)).1.map Prod.fst
        = (appendUnseen l (ann.map Prod.fst, seen)).1 ∧
      (appendUnseenIdx i l (ann, seen)).2 = (appendUnseen l (ann.map Prod.fst, seen)).2 := by
  induction l generalizing ann seen with
  | nil => exact ⟨rfl, rfl⟩
  | cons t ts ih =>
    rw [appendUnseenIdx_cons, appendUnseen_cons]
    cases h : hasTag seen t with
    | true => simpa [h] using ih ann seen
    | false =>
      have := ih (ann ++ [(t, i)]) (seen ++ [t])
      simpa [h, List.map_append] using this

theorem processTokenIdx_empty (sg : List (Str × List Str)) (supported : List Str) (i : Nat)
    (st : List (Str × Nat) × List Str) (pref : Str) (h : trimSpace pref = []) :
    processTokenIdx sg supported i st pref = st := by
  simp [processTokenIdx, h]

theorem processTokenIdx_wildcard (sg : List (Str × List Str)) (supported : List Str) (i : Nat)
    (st : List (Str × Nat) × List Str) (pref : Str) (h : trimSpace pref = ['*']) :
    processTokenIdx sg supported i st pref = appendUnseenIdx i supported st := by
  simp [processTokenIdx, h]

theorem processTokenIdx_exact (sg : List (Str × List Str)) (supported : List Str) (i : Nat)
    (st : List (Str × Nat) × List Str) (pref : Str) (h0 : trimSpace pref ≠ [])
    (h1 : trimSpace pref ≠ ['*'])
    (h2 : hasTag supported (trimSpace pref) = true)
    (h3 : hasTag st.2 (trimSpace pref) = false) :
    processTokenIdx sg supported i st pref =
      (st.1 ++ [(trimSpace pref, i)], st.2 ++ [trimSpace pref]) := by
  simp [processTokenIdx, h0, h1, h2, h3]

theorem processTokenIdx_generic (sg : List (Str × List Str)) (supported : List Str) (i : Nat)
    (st : List (Str × Nat) × List Str) (pref : Str) (h0 : trimSpace pref ≠ [])
    (h1 : trimSpace pref ≠ ['*'])
    (h2 : (hasTag supported (trimSpace pref) && !hasTag st.2 (trimSpace pref)) = false)
    (h3 : containsChar (trimSpace pref) '-' = false) :
    processTokenIdx sg supported i st pref =
      appendUnseenIdx i (lookupGeneric sg (trimSpace pref)) st := by
  simp [processTokenIdx, h0, h1, h2, h3]

theorem processTokenIdx_skip (sg : List (Str × List Str)) (supported : List Str) (i : Nat)
    (st : List (Str × Nat) × List Str) (pref : Str) (h0 : trimSpace pref ≠ [])
    (h1 : trimSpace pref ≠ ['*'])
    (h2 : (hasTag supported (trimSpace pref) && !hasTag st.2 (trimSpace pref)) = false)
    (h3 : containsChar (trimSpace pref) '-' = true) :
    processTokenIdx sg supported i st pref = st := by
  simp [processTokenIdx, h0, h1, h2, h3]

theorem processTokenIdx_corr (sg : List (Str × List Str)) (supported : List Str) (i : Nat)
    (ann : List (Str × Nat)) (seen : List Str) (pref : Str) :
    (processTokenIdx sg supported i (ann, seen) pref).1.map Prod.fst
        = (processToken sg supported (ann.map Prod.fst, seen) pref).1 ∧
      (processTokenIdx sg supported i (ann, seen) pref).2
        = (processToken sg supported (ann.map Prod.fst, seen) pref).2 := by
  by_cases h0 : trimSpace pref = []
  · rw [processTokenIdx_empty sg supported i (ann, seen) pref h0,
      processToken_empty sg supported (ann.map Prod.fst, seen) pref h0]
    exact ⟨rfl, rfl⟩
  by_cases h1 : trimSpace pref = ['*']
  · rw [processTokenIdx_wildcard sg supported i (ann, seen) pref h1,
      processToken_wildcard sg supported (ann.map Prod.fst, seen) pref h1]
    exact appendUnseenIdx_corr i supported ann seen
  cases h2 : (hasTag supported (trimSpace pref) && !hasTag seen (trimSpace pref)) with
  | true =>
    have hsup : hasTag supported (trimSpace pref) = true := (Bool.and_eq_true_iff.mp h2).1
    have hseen : hasTag seen (trimSpace pref) = false := by
      have := (Bool.and_eq_true_iff.mp h2).2
      cases hh : hasTag seen (trimSpace pref)
      · rfl
      · rw [hh] at this
        simp at this
    rw [processTokenIdx_exact sg supported i (ann, seen) pref h0 h1 hsup hseen,
      processToken_exact sg supported (ann.map Prod.fst, seen) pref h0 h1 hsup hseen]
    exact ⟨by simp, rfl⟩
  | false =>
    cases h3 : containsChar (trimSpace pref) '-' with
    | false =>
      rw [processTokenIdx_generic sg supported i (ann, seen) pref h0 h1 h2 h3,
        processToken_generic sg supported (ann.map Prod.fst, seen) pref h0 h1 h2 h3]
      exact appendUnseenIdx_corr i (lookupGeneric sg (trimSpace pref)) ann seen
    | true =>
      rw [processTokenIdx_skip sg supported i (ann, seen) pref h0 h1 h2 h3,
        processToken_skip sg supported (ann.map Prod.fst, seen) pref h0 h1 h2 h3]
      exact ⟨rfl, rfl⟩

theorem runIdx_cons (sg : List (Str × List Str)) (supported : List Str) (i : Nat)
    (pref : Str) (rest : List Str) (st : List (Str × Nat) × List Str) :
    runIdx sg supported i (pref :: rest) st =
      runIdx sg supported (i + 1) rest (processTokenIdx sg supported i st pref) := rfl

theorem runIdx_corr (prefs : List Str) (sg : List (Str × List Str)) (supported : List Str) :
    ∀ (i : Nat) (ann : List (Str × Nat)) (seen : List Str),
    (runIdx sg supported i prefs (ann, seen)).1.map Prod.fst
        = (prefs.foldl (processToken sg supported) (ann.map Prod.fst, seen)).1 ∧
      (runIdx sg supported i prefs (ann, seen)).2
        = (prefs.foldl (processToken sg supported) (ann.map Prod.fst, seen)).2 := by
  induction prefs with
  | nil => exact fun i ann seen => ⟨rfl, rfl⟩
  | cons pref rest ih =>
    intro i ann seen
    obtain ⟨h1, h2⟩ := processTokenIdx_corr sg supported i ann seen pref
    cases hst : processTokenIdx sg supported i (ann, seen) pref with
    | mk ann' seen' =>
      cases hpt : processToken sg supported (ann.map Prod.fst, seen) pref with
      | mk res2 seen2 =>
        rw [hst, hpt] at h1 h2
        simp only at h1 h2
        rw [runIdx_cons, List.foldl_cons, hst, hpt, ← h1, ← h2]
        exact ih (i + 1) ann' seen'

theorem pairwise_snd_const {new : List (Str × Nat)} {i : Nat} (h : ∀ p ∈ new, p.2 = i) :
    new.Pairwise (fun a b => a.2 ≤ b.2) := by
  induction new with
  | nil => exact List.Pairwise.nil
  | cons q qs ih =>
    refine List.Pairwise.cons (fun b hb => ?_) (ih fun p hp => h p (List.mem_cons_of_mem _ hp))
    rw [h q (List.mem_cons_self _ _), h b (List.mem_cons_of_mem _ hb)]

theorem appendUnseenIdx_new (i : Nat) (l : List Str) (ann : List (Str × Nat))
    (seen : List Str) :
    ∃ new, (appendUnseenIdx i l (ann, seen)).1 = ann ++ new ∧ ∀ p ∈ new, p.2 = i := by
  induction l generalizing ann seen with
  | nil => exact ⟨[], by simp [appendUnseenIdx], by simp⟩
  | cons t ts ih =>
    rw [appendUnseenIdx_cons]
    cases h : hasTag seen t with
    | true => simpa [h] using ih ann seen
    | false =>
      obtain ⟨new, hnew, hni⟩ := ih (ann ++ [(t, i)]) (seen ++ [t])
      refine ⟨(t, i) :: new, ?_, ?_⟩
      · simpa [h, List.append_assoc] using hnew
      · intro p hp
        rcases List.mem_cons.mp hp with hp | hp
        · rw [hp]
        · exact hni p hp

theorem processTokenIdx_new (sg : List (Str × List Str)) (supported : List Str) (i : Nat)
    (ann : List (Str × Nat)) (seen : List Str) (pref : Str) :
    ∃ new, (processTokenIdx sg supported i (ann, seen) pref).1 = ann ++ new ∧
      ∀ p ∈ new, p.2 = i := by
  by_cases h0 : trimSpace pref = []
  · exact ⟨[], by simp [processTokenIdx_empty sg supported i (ann, seen) pref h0], by simp⟩
  by_cases h1 : trimSpace pref = ['*']
  · rw [processTokenIdx_wildcard sg supported i (ann, seen) pref h1]
    exact appendUnseenIdx_new i supported ann seen
  cases h2 : (hasTag supported (trimSpace pref) && !hasTag seen (trimSpace pref)) with
  | true =>
    have hsup : hasTag supported (trimSpace pref) = true := (Bool.and_eq_true_iff.mp h2).1
    have hseen : hasTag seen (trimSpace pref) = false := by
      have := (Bool.and_eq_true_iff.mp h2).2
      cases hh : hasTag seen (trimSpace pref)
      · rfl
      · rw [hh] at this
        simp at this
    refine ⟨[(trimSpace pref, i)],
      by rw [processTokenIdx_exact sg supported i (ann, seen) pref h0 h1 hsup hseen], ?_⟩
    intro p hp
    rw [List.mem_singleton.mp hp]
  | false =>
    cases h3 : containsChar (trimSpace pref) '-' with
    | false =>
      rw [processTokenIdx_generic sg supported i (ann, seen) pref h0 h1 h2 h3]
      exact appendUnseenIdx_new i (lookupGeneric sg (trimSpace pref)) ann seen
    | true =>
      exact ⟨[], by simp [processTokenIdx_skip sg supported i (ann, seen) pref h0 h1 h2 h3],
        by simp⟩

theorem runIdx_pairwise (prefs : List Str) (sg : List (Str × List Str))
    (supported : List Str) :
    ∀ (i : Nat) (ann : List (Str × Nat)) (seen : List Str),
    (∀ p ∈ ann, p.2 < i) → ann.Pairwise (fun a b => a.2 ≤ b.2) →
    (∀ p ∈ (runIdx sg supported i prefs (ann, seen)).1, p.2 < i + prefs.length) ∧
      (runIdx sg supported i prefs (ann, seen)).1.Pairwise (fun a b => a.2 ≤ b.2) := by
  induction prefs with
  | nil =>
    intro i ann seen hb hp
    exact ⟨by simpa [runIdx] using fun p h => hb p h, by simpa [runIdx] using hp⟩
  | cons pref rest ih =>
    intro i ann seen hb hp
    obtain ⟨new, hnew, hni⟩ := processTokenIdx_new sg supported i ann seen pref
    cases hst : processTokenIdx sg supported i (ann, seen) pref with
    | mk ann' seen' =>
      rw [hst] at hnew
      simp only at hnew
      have hb' : ∀ p ∈ ann', p.2 < i + 1 := by
        rw [hnew]
        intro p hp'
        rcases List.mem_append.mp hp' with h | h
        · exact Nat.lt_succ_of_lt (hb p h)
        · rw [hni p h]
          exact Nat.lt_succ_self i
      have hp' : ann'.Pairwise (fun a b => a.2 ≤ b.2) := by
        rw [hnew]
        refine List.pairwise_append.mpr ⟨hp, pairwise_snd_const hni, ?_⟩
        intro a ha b hbm
        rw [hni b hbm]
        exact Nat.le_of_lt (hb a ha)
      have hrest := ih (i + 1) ann' seen' hb' hp'
      rw [runIdx_cons, hst]
      refine ⟨fun p hpm => ?_, hrest.2⟩
      have := hrest.1 p hpm
      simp only [List.length_cons]
      omega

/-- C7: each element of the result carries the index of the header token
whose rule appended it (`parseAcceptLanguageIdx` runs the same loop,
recording that index); erasing the indices gives exactly the plain result,
and the recorded indices are pairwise non-decreasing along the result, so a
tag appended strictly earlier was produced by a token no later in the
header. -/
theorem claim7_theorem (header : Str) (supported : List Str) :
    (parseAcceptLanguageIdx header supported).map Prod.fst
        = parseAcceptLanguage header supported ∧
      (parseAcceptLanguageIdx header supported).Pairwise (fun a b => a.2 ≤ b.2) := by
  unfold parseAcceptLanguageIdx parseAcceptLanguage
  by_cases h : header = [] ∨ supported = []
  · simp [h]
  · rw [if_neg h, if_neg h]
    constructor
    · have := (runIdx_corr (splitOnComma header) (buildGeneric supported) supported 0 [] []).1
      simpa using this
    · exact (runIdx_pairwise (splitOnComma header) (buildGeneric supported) supported 0 [] []
        (by simp) List.Pairwise.nil).2

